import Mathlib

/-!
Verification of the frequency-tagging normalization procedure of the
EEG analysis notebook (FFT cell, baseline-subtraction loop, smoothing
loop and nearest-bin target lookup).

Amplitude matrices are embedded as lists of channel rows over a linear
ordered field (the notebook computes with IEEE floats; exact field
arithmetic is the idealized semantics the spec describes).  NumPy fancy
indexing with possibly negative indices is embedded by `npGetF`, which
returns `none` exactly when NumPy would raise `IndexError`; a whole
NumPy indexing expression aborts on the first bad index, which
`seqOption` mirrors.
-/

namespace FreqTag

/-- Number of frequency bins of a channels-by-bins matrix, i.e. NumPy's
`a.shape[1]` for a rectangular 2-D array embedded as a list of rows. -/
def nBins {α : Type} (m : List (List α)) : ℕ := (m.head?.getD []).length

/-- Sequencing of a list of optional values: `some` of the list of values
when all are present, `none` as soon as one is missing.  This is how a
NumPy expression propagates an `IndexError` out of a whole statement. -/
def seqOption {β : Type} : List (Option β) → Option (List β)
  | [] => some []
  | none :: _ => none
  | some b :: rest => (seqOption rest).map (b :: ·)

/-- Arithmetic mean of a list, `np.mean` over one axis; the empty mean is
`0/0 = 0` in a field (NumPy yields NaN there, a case none of the claims
reach). -/
def meanL {α : Type} [LinearOrderedField α] (xs : List α) : α :=
  xs.sum / (xs.length : α)

/-- NumPy element lookup `row[j]` against axis length `F`: a negative `j`
counts from the end (`j + F`), and any resolved index outside `[0, F)`
is an `IndexError`, i.e. `none`. -/
def npGetF {α : Type} [LinearOrderedField α] (F : ℕ) (row : List α) (j : ℤ) : Option α :=
  let jj : ℤ := if j < 0 then j + F else j
  if 0 ≤ jj ∧ jj < (F : ℤ) then some (row.getD jj.toNat 0) else none

/-- Baseline subtraction loop of the frequency-tagging cell:
for each bin `i` of `range F` it subtracts from `amp[:, i]` the mean of
`amp[:, referenceBins]` — the *fixed* index list, resolved once per row
with NumPy negative indexing — and the final `sub_amp[sub_amp < 0] = 0`
clamp is the elementwise `max 0`.  The source also computes a per-bin
shifted and range-filtered index list `reference_inds` that it never
uses; that dead computation is omitted here and is the subject of the
shifted variant below. -/
def baselineSubtract {α : Type} [LinearOrderedField α]
    (amp : List (List α)) (referenceBins : List ℤ) : Option (List (List α)) :=
  let F := nBins amp
  seqOption (amp.map (fun row =>
    seqOption ((List.range F).map (fun i =>
      (seqOption (referenceBins.map (npGetF F row))).map (fun vals =>
        max 0 (row.getD i 0 - meanL vals))))))

/-- Written from the spec's words, for comparison with `baselineSubtract`:
at each bin `i` the baseline is the mean over the bins at
`i + referenceOffsets` after discarding offsets that fall outside
`[0, F)`, and negative results are clamped to zero. -/
def baselineSubtractShifted {α : Type} [LinearOrderedField α]
    (amp : List (List α)) (referenceOffsets : List ℤ) : List (List α) :=
  let F := nBins amp
  amp.map (fun row =>
    (List.range F).map (fun i =>
      let inds := (referenceOffsets.map (· + ((i : ℕ) : ℤ))).filter
        (fun j => 0 ≤ j ∧ j < (F : ℤ))
      max 0 (row.getD i 0 - meanL (inds.map (fun j => row.getD j.toNat 0)))))

/-- Smoothing loop of the frequency-tagging cell: each bin becomes the
mean of the bins at `i + binsToAvg` after the in-range filter
`(inds_to_avg >= 0) & (inds_to_avg < F)`. -/
def smooth {α : Type} [LinearOrderedField α]
    (subAmp : List (List α)) (binsToAvg : List ℤ) : List (List α) :=
  let F := nBins subAmp
  subAmp.map (fun row =>
    (List.range F).map (fun i =>
      let inds := (binsToAvg.map (· + ((i : ℕ) : ℤ))).filter
        (fun j => 0 ≤ j ∧ j < (F : ℤ))
      meanL (inds.map (fun j => row.getD j.toNat 0))))

/-- The per-channel constant that `baselineSubtract` actually subtracts
when called with the source's fixed `reference_bins = [-5,-4,-3,3,4,5]`:
the mean of the row at the resolved fixed indices
`F-5, F-4, F-3, 3, 4, 5`. -/
def fixedBaseline {α : Type} [LinearOrderedField α] (F : ℕ) (row : List α) : α :=
  meanL [row.getD (F - 5) 0, row.getD (F - 4) 0, row.getD (F - 3) 0,
         row.getD 3 0, row.getD 4 0, row.getD 5 0]

/-- Embedding of `np.argmin`: index of the first occurrence of the
minimum of a list, `none` on the empty list (NumPy raises there).  A
head that ties the minimum of the tail wins, so the lowest index is
returned. -/
def argminList {α : Type} [LinearOrderedField α] : List α → Option ℕ
  | [] => none
  | x :: xs =>
    match argminList xs with
    | none => some 0
    | some j => if x ≤ xs.getD j 0 then some 0 else some (j + 1)

/-- Target-frequency cell: for each target `f`,
`ind = np.argmin(np.abs(freqs - f))`, `closest_freqs[i] = freqs[ind]` and
`target_amp[:, i] = amp[:, ind]`.  `none` models the `ValueError` of
`np.argmin` on an empty frequency axis. -/
def nearestBinAmplitudes {α : Type} [LinearOrderedField α]
    (freqs : List α) (amp : List (List α)) (targetFreqs : List α) :
    Option (List α × List (List α)) :=
  (seqOption (targetFreqs.map (fun f =>
      argminList (freqs.map (fun x => |x - f|))))).map
    (fun inds =>
      (inds.map (fun k => freqs.getD k 0),
       amp.map (fun row => inds.map (fun k => row.getD k 0))))

/-- The only error kind of the spec's error-handling design. -/
inductive SpecError where
  | invalidInput
  deriving DecidableEq

/-- Embedding of `np.fft.fftfreq(n, d)`: entry `k` is `k/(d*n)` for
`k ≤ (n-1)/2` (the non-negative frequencies) and `(k-n)/(d*n)` for the
remaining, negative-frequency entries. -/
def fftfreq {α : Type} [LinearOrderedField α] (n : ℕ) (d : α) : List α :=
  (List.range n).map (fun k =>
    if k ≤ (n - 1) / 2 then (k : α) / (d * n) else ((k : α) - n) / (d * n))

/-- Exact semantics of one row of `np.abs(np.fft.fft(data, n=nfreqs,
axis=1))`: the magnitude of the discrete Fourier transform of the row,
zero-padded or truncated to length `n` exactly as `np.fft.fft` does with
an explicit `n`. -/
noncomputable def dftRow (n : ℕ) (row : List ℝ) : List ℝ :=
  (List.range n).map (fun k =>
    Complex.abs (∑ t ∈ Finset.range n,
      ((row.getD t 0 : ℝ) : ℂ)
        * Complex.exp (-2 * (Real.pi : ℂ) * Complex.I * ((k : ℕ) : ℂ)
            * ((t : ℕ) : ℂ) / ((n : ℕ) : ℂ))))

/-- Boolean-mask column selection `a[:, freqs >= 0]` along one row:
keep the entries of `vals` whose positionally corresponding frequency is
non-negative. -/
def maskKeep {β γ : Type} [LinearOrderedField γ] (vals : List β) (fr : List γ) :
    List β :=
  (vals.zip fr).filterMap (fun p => if 0 ≤ p.2 then some p.1 else none)

/-- Modelled from the spec: the `computeSpectrum` operation with its
`InvalidInputError` validation (`T == 0` or `samplingRate <= 0`) is not a
function of the notebook, which runs the FFT cell unguarded; the
validation is taken from the spec's words, and the body is the notebook
cell: `freqs = np.fft.fftfreq(nfreqs, d=1/sampling_rate)`,
`amp = np.abs(np.fft.fft(data, n=nfreqs, axis=1))`, then
`amp = amp[:, freqs >= 0]` and `freqs = freqs[freqs >= 0]`, with
`nfreqs = data.shape[1]` and the float arithmetic idealized as `ℝ`. -/
noncomputable def computeSpectrum (signal : List (List ℝ)) (samplingRate : ℝ) :
    Except SpecError (List ℝ × List (List ℝ)) :=
  let T := nBins signal
  if T = 0 ∨ samplingRate ≤ 0 then Except.error SpecError.invalidInput
  else
    let freqsAll := fftfreq T (1 / samplingRate)
    Except.ok (maskKeep freqsAll freqsAll,
      signal.map (fun row => maskKeep (dftRow T row) freqsAll))

/-- The values the frequency-tagging section of the notebook leaves in
scope: the frequency axis, the raw amplitudes, the normalized
amplitudes, and the nearest-bin outputs. -/
structure FreqTagResult (α : Type) where
  freqs : List α
  amp : List (List α)
  normAmp : List (List α)
  closestFreqs : List α
  targetAmp : List (List α)

/-- The notebook's frequency-tagging flow end to end: FFT cell, baseline
subtraction, smoothing, and the target-frequency cell, which reads the
raw `amp` (not `norm_amp`). -/
noncomputable def freqTagPipeline (signal : List (List ℝ)) (samplingRate : ℝ)
    (referenceBins smoothBins : List ℤ) (targetFreqs : List ℝ) :
    Option (FreqTagResult ℝ) :=
  match computeSpectrum signal samplingRate with
  | Except.error _ => none
  | Except.ok (freqs, amp) =>
    match baselineSubtract amp referenceBins with
    | none => none
    | some subAmp =>
      match nearestBinAmplitudes freqs amp targetFreqs with
      | none => none
      | some (cf, ta) => some ⟨freqs, amp, smooth subAmp smoothBins, cf, ta⟩

/-! Basic lemmas about the embedding's plumbing. -/

theorem seqOption_map_some {γ β : Type} (l : List γ) (f : γ → β) :
    seqOption (l.map (fun a => some (f a))) = some (l.map f) := by
  induction l with
  | nil => rfl
  | cons a t ih => simp [seqOption, ih]

theorem seqOption_eq_some_length {β : Type} {l : List (Option β)} {l₂ : List β}
    (h : seqOption l = some l₂) : l₂.length = l.length := by
  induction l generalizing l₂ with
  | nil => simp [seqOption] at h; subst h; rfl
  | cons o t ih =>
    cases o with
    | none => simp [seqOption] at h
    | some a =>
      cases ht : seqOption t with
      | none => rw [seqOption, ht] at h; simp at h
      | some t₂ =>
        rw [seqOption, ht] at h
        simp only [Option.map_some', Option.some.injEq] at h
        subst h
        simp [ih ht]

theorem seqOption_mem {β : Type} {l : List (Option β)} {l₂ : List β}
    (h : seqOption l = some l₂) {b : β} (hb : b ∈ l₂) : some b ∈ l := by
  induction l generalizing l₂ with
  | nil => simp [seqOption] at h; subst h; simp at hb
  | cons o t ih =>
    cases o with
    | none => simp [seqOption] at h
    | some a =>
      cases ht : seqOption t with
      | none => rw [seqOption, ht] at h; simp at h
      | some t₂ =>
        rw [seqOption, ht] at h
        simp only [Option.map_some', Option.some.injEq] at h
        subst h
        rcases List.mem_cons.mp hb with hb | hb
        · subst hb; exact List.mem_cons_self _ _
        · exact List.mem_cons_of_mem _ (ih ht hb)

theorem seqOption_getD {β : Type} {l : List (Option β)} {l₂ : List β}
    (h : seqOption l = some l₂) (d : β) :
    ∀ i, i < l.length → l.getD i none = some (l₂.getD i d) := by
  induction l generalizing l₂ with
  | nil => intro i hi; simp at hi
  | cons o t ih =>
    cases o with
    | none => simp [seqOption] at h
    | some a =>
      cases ht : seqOption t with
      | none => rw [seqOption, ht] at h; simp at h
      | some t₂ =>
        rw [seqOption, ht] at h
        simp only [Option.map_some', Option.some.injEq] at h
        subst h
        intro i hi
        cases i with
        | zero => rfl
        | succ n =>
          simp only [List.getD_cons_succ]
          exact ih ht n (Nat.lt_of_succ_lt_succ hi)

theorem seqOption_all_some {β : Type} {l : List (Option β)}
    (h : ∀ o ∈ l, ∃ b, o = some b) : ∃ l₂, seqOption l = some l₂ := by
  induction l with
  | nil => exact ⟨[], rfl⟩
  | cons o t ih =>
    obtain ⟨b, hb⟩ := h o (List.mem_cons_self _ _)
    obtain ⟨t₂, ht⟩ := ih (fun o ho => h o (List.mem_cons_of_mem _ ho))
    subst hb
    exact ⟨b :: t₂, by rw [seqOption, ht]; rfl⟩

theorem meanL_nonneg {α : Type} [LinearOrderedField α] {xs : List α}
    (h : ∀ x ∈ xs, 0 ≤ x) : 0 ≤ meanL xs :=
  div_nonneg (List.sum_nonneg h) (Nat.cast_nonneg _)

theorem meanL_eq_zero {α : Type} [LinearOrderedField α] {xs : List α}
    (h : ∀ x ∈ xs, x = 0) : meanL xs = 0 := by
  unfold meanL
  rw [List.sum_eq_zero h, zero_div]

theorem getD_eq_zero_of_all_zero {α : Type} [LinearOrderedField α] {row : List α}
    (h : ∀ x ∈ row, x = 0) (i : ℕ) : row.getD i 0 = 0 := by
  rcases Nat.lt_or_ge i row.length with hlt | hge
  · rw [List.getD_eq_getElem _ _ hlt]
    exact h _ (List.getElem_mem hlt)
  · exact List.getD_eq_default _ _ hge

theorem getD_nonneg_of_all_nonneg {α : Type} [LinearOrderedField α] {row : List α}
    (h : ∀ x ∈ row, 0 ≤ x) (i : ℕ) : 0 ≤ row.getD i 0 := by
  rcases Nat.lt_or_ge i row.length with hlt | hge
  · rw [List.getD_eq_getElem _ _ hlt]
    exact h _ (List.getElem_mem hlt)
  · rw [List.getD_eq_default _ _ hge]

theorem npGetF_eq_some {α : Type} [LinearOrderedField α] {F : ℕ} {row : List α}
    {j : ℤ} {v : α} (h : npGetF F row j = some v) : ∃ m, v = row.getD m 0 := by
  simp only [npGetF] at h
  by_cases hc : 0 ≤ (if j < 0 then j + (F : ℤ) else j)
      ∧ (if j < 0 then j + (F : ℤ) else j) < (F : ℤ)
  · rw [if_pos hc] at h
    exact ⟨_, (Option.some.inj h).symm⟩
  · rw [if_neg hc] at h
    cases h

theorem npGetF_eval_neg {α : Type} [LinearOrderedField α] {F : ℕ} (row : List α)
    {j : ℤ} {m : ℕ} (hj : j < 0) (h0 : 0 ≤ j + F) (hm : (j + F).toNat = m) :
    npGetF F row j = some (row.getD m 0) := by
  simp only [npGetF]
  rw [if_pos hj, if_pos ⟨h0, by omega⟩, hm]

theorem npGetF_eval_pos {α : Type} [LinearOrderedField α] {F : ℕ} (row : List α)
    {j : ℤ} {m : ℕ} (hj : ¬j < 0) (hF : j < (F : ℤ)) (hm : j.toNat = m) :
    npGetF F row j = some (row.getD m 0) := by
  simp only [npGetF]
  rw [if_neg hj, if_pos ⟨by omega, hF⟩, hm]

theorem refList_eval {α : Type} [LinearOrderedField α] {F : ℕ} (row : List α)
    (h6 : 6 ≤ F) :
    seqOption (([-5, -4, -3, 3, 4, 5] : List ℤ).map (npGetF F row)) =
      some [row.getD (F - 5) 0, row.getD (F - 4) 0, row.getD (F - 3) 0,
            row.getD 3 0, row.getD 4 0, row.getD 5 0] := by
  simp only [List.map_cons, List.map_nil]
  rw [npGetF_eval_neg row (by norm_num) (by omega) (by omega : ((-5 : ℤ) + F).toNat = F - 5),
      npGetF_eval_neg row (by norm_num) (by omega) (by omega : ((-4 : ℤ) + F).toNat = F - 4),
      npGetF_eval_neg row (by norm_num) (by omega) (by omega : ((-3 : ℤ) + F).toNat = F - 3),
      npGetF_eval_pos row (by norm_num) (by omega) (by omega : (3 : ℤ).toNat = 3),
      npGetF_eval_pos row (by norm_num) (by omega) (by omega : (4 : ℤ).toNat = 4),
      npGetF_eval_pos row (by norm_num) (by omega) (by omega : (5 : ℤ).toNat = 5)]
  rfl

/-- C2: for every amplitude matrix with at least 6 bins, the reference
implementation of `baselineSubtract` subtracts at every bin `i` the same
per-channel constant `fixedBaseline`, the mean of the row over the fixed
index set `{-5,-4,-3,3,4,5}` resolved by negative indexing to bins
`F-5, F-4, F-3, 3, 4, 5`; the subtracted baseline does not depend on
`i`. -/
theorem baselineSubtract_subtracts_fixed_index_mean {α : Type} [LinearOrderedField α]
    (amp : List (List α)) (h6 : 6 ≤ nBins amp) :
    baselineSubtract amp [-5, -4, -3, 3, 4, 5] =
      some (amp.map (fun row => (List.range (nBins amp)).map
        (fun i => max 0 (row.getD i 0 - fixedBaseline (nBins amp) row)))) := by
  simp only [baselineSubtract]
  have hrow : ∀ row : List α,
      seqOption ((List.range (nBins amp)).map (fun i =>
        (seqOption (([-5, -4, -3, 3, 4, 5] : List ℤ).map (npGetF (nBins amp) row))).map
          (fun vals => max 0 (row.getD i 0 - meanL vals)))) =
      some ((List.range (nBins amp)).map
        (fun i => max 0 (row.getD i 0 - fixedBaseline (nBins amp) row))) := by
    intro row
    rw [refList_eval row h6]
    simp only [Option.map_some', fixedBaseline]
    exact seqOption_map_some _ _
  have hmap : amp.map (fun row =>
      seqOption ((List.range (nBins amp)).map (fun i =>
        (seqOption (([-5, -4, -3, 3, 4, 5] : List ℤ).map (npGetF (nBins amp) row))).map
          (fun vals => max 0 (row.getD i 0 - meanL vals))))) =
      amp.map (fun row => some ((List.range (nBins amp)).map
        (fun i => max 0 (row.getD i 0 - fixedBaseline (nBins amp) row)))) :=
    List.map_congr_left (fun row _ => hrow row)
  rw [hmap]
  exact seqOption_map_some _ _

/-- Witness for C2 at the concrete single-channel matrix
`[[1,2,3,4,5,6,7]]` over `ℚ`. -/
theorem baselineSubtract_subtracts_fixed_index_mean_witness :
    6 ≤ nBins ([[1, 2, 3, 4, 5, 6, 7]] : List (List ℚ))
    ∧ baselineSubtract ([[1, 2, 3, 4, 5, 6, 7]] : List (List ℚ)) [-5, -4, -3, 3, 4, 5] =
      some (([[1, 2, 3, 4, 5, 6, 7]] : List (List ℚ)).map (fun row =>
        (List.range (nBins ([[1, 2, 3, 4, 5, 6, 7]] : List (List ℚ)))).map
          (fun i => max 0 (row.getD i 0 -
            fixedBaseline (nBins ([[1, 2, 3, 4, 5, 6, 7]] : List (List ℚ))) row)))) :=
  ⟨by decide, baselineSubtract_subtracts_fixed_index_mean _ (by decide)⟩

/-- C1: the claimed shifted-offsets baseline is not what the code computes.
At the single-channel matrix `[[0,20,0,0,0,0,30,0,0,0,0,0]]` with the
source's offsets `[-5,-4,-3,3,4,5]`, the code's `baselineSubtract`
subtracts the fixed-index mean (here `0`) and returns the input
unchanged, while the per-bin shifted-and-filtered mean of the spec
yields `[[0,10,0,0,0,0,80/3,0,0,0,0,0]]`; the two disagree at bin 1. -/
theorem baselineSubtract_deviates_from_shifted_offsets :
    baselineSubtract ([[0, 20, 0, 0, 0, 0, 30, 0, 0, 0, 0, 0]] : List (List ℚ))
        [-5, -4, -3, 3, 4, 5]
      = some [[0, 20, 0, 0, 0, 0, 30, 0, 0, 0, 0, 0]]
    ∧ baselineSubtractShifted ([[0, 20, 0, 0, 0, 0, 30, 0, 0, 0, 0, 0]] : List (List ℚ))
        [-5, -4, -3, 3, 4, 5]
      = [[0, 10, 0, 0, 0, 0, 80 / 3, 0, 0, 0, 0, 0]]
    ∧ ([[0, 20, 0, 0, 0, 0, 30, 0, 0, 0, 0, 0]] : List (List ℚ))
      ≠ [[0, 10, 0, 0, 0, 0, 80 / 3, 0, 0, 0, 0, 0]] := by
  have h12 : List.range 12 = [0, 1, 2, 3, 4, 5, 6, 7, 8, 9, 10, 11] := rfl
  refine ⟨?_, ?_, ?_⟩
  · simp [baselineSubtract, seqOption, meanL, npGetF, nBins, h12]
  · simp [baselineSubtractShifted, meanL, nBins, h12]
    all_goals norm_num
  · intro h
    have := List.head_eq_of_cons_eq h
    have h1 := congrArg (fun l => l.getD 1 (0 : ℚ)) this
    norm_num at h1

/-- C3: at the spec's scenario `amp = [[0,0,0,10,0,0,0]]` with offsets
`{-3,-2,-1,1,2,3}`, the code's fixed-index baseline at bin 3 is
`mean [amp[4], amp[5], amp[6], amp[1], amp[2], amp[3]] = 5/3` (the peak
itself is among the fixed indices), so `subAmp[3] = 25/3`, not the `10`
the claim states. -/
theorem baselineSubtract_scenario_bin3 :
    baselineSubtract ([[0, 0, 0, 10, 0, 0, 0]] : List (List ℚ)) [-3, -2, -1, 1, 2, 3]
      = some [[0, 0, 0, 25 / 3, 0, 0, 0]]
    ∧ (25 / 3 : ℚ) ≠ 10 := by
  have h7 : List.range 7 = [0, 1, 2, 3, 4, 5, 6] := rfl
  constructor
  · simp [baselineSubtract, seqOption, meanL, npGetF, nBins, h7]
    all_goals norm_num
  · norm_num

/-- C9: `smooth` is not idempotent: on the non-uniform matrix
`[[0,0,3,0,0]]` with the source's window `[-1,0,1]`, one application
gives `[[0,1,1,1,0]]` and a second application changes it again. -/
theorem smooth_not_idempotent :
    ∃ m : List (List ℚ),
      smooth (smooth m [-1, 0, 1]) [-1, 0, 1] ≠ smooth m [-1, 0, 1] := by
  refine ⟨[[0, 0, 3, 0, 0]], ?_⟩
  have h5 : List.range 5 = [0, 1, 2, 3, 4] := rfl
  simp [smooth, meanL, nBins, h5]

theorem baselineSubtract_entry_shape {α : Type} [LinearOrderedField α]
    {amp : List (List α)} {rb : List ℤ} {out : List (List α)}
    (h : baselineSubtract amp rb = some out) {row₂ : List α} (hrow : row₂ ∈ out)
    {x : α} (hx : x ∈ row₂) :
    ∃ row ∈ amp, ∃ i : ℕ, ∃ vals : List α,
      seqOption (rb.map (npGetF (nBins amp) row)) = some vals
      ∧ x = max 0 (row.getD i 0 - meanL vals) := by
  simp only [baselineSubtract] at h
  have h1 := seqOption_mem h hrow
  obtain ⟨row, hrowmem, hroweq⟩ := List.mem_map.mp h1
  have h2 := seqOption_mem hroweq hx
  obtain ⟨i, _, hieq⟩ := List.mem_map.mp h2
  obtain ⟨vals, hvals, hxeq⟩ := Option.map_eq_some'.mp hieq
  exact ⟨row, hrowmem, i, vals, hvals, hxeq.symm⟩

theorem smooth_entry_shape {α : Type} [LinearOrderedField α]
    {m : List (List α)} {sb : List ℤ} {row₂ : List α} (hrow : row₂ ∈ smooth m sb)
    {x : α} (hx : x ∈ row₂) :
    ∃ row ∈ m, ∃ inds : List ℤ,
      x = meanL (inds.map (fun j => row.getD j.toNat 0)) := by
  simp only [smooth] at hrow
  obtain ⟨row, hrowmem, hroweq⟩ := List.mem_map.mp hrow
  subst hroweq
  obtain ⟨i, _, hieq⟩ := List.mem_map.mp hx
  exact ⟨row, hrowmem, _, hieq.symm⟩

/-- C6: whenever `baselineSubtract` returns a matrix, every entry of it is
non-negative (the clamp `sub_amp[sub_amp < 0] = 0`), and every entry of
the smoothed matrix `normAmp` obtained from it is non-negative as well. -/
theorem baselineSubtract_smooth_nonneg {α : Type} [LinearOrderedField α]
    (amp : List (List α)) (rb sb : List ℤ) (out : List (List α))
    (h : baselineSubtract amp rb = some out) :
    (∀ row ∈ out, ∀ x ∈ row, 0 ≤ x)
    ∧ (∀ row ∈ smooth out sb, ∀ x ∈ row, 0 ≤ x) := by
  have hout : ∀ row ∈ out, ∀ x ∈ row, 0 ≤ x := by
    intro row hrow x hx
    obtain ⟨_, _, _, _, _, hxeq⟩ := baselineSubtract_entry_shape h hrow hx
    rw [hxeq]
    exact le_max_left _ _
  refine ⟨hout, fun row hrow x hx => ?_⟩
  obtain ⟨row₀, hrow₀, inds, hxeq⟩ := smooth_entry_shape hrow hx
  rw [hxeq]
  refine meanL_nonneg ?_
  intro y hy
  obtain ⟨j, _, hj⟩ := List.mem_map.mp hy
  rw [← hj]
  exact getD_nonneg_of_all_nonneg (hout row₀ hrow₀) _

/-- C8: on an all-zero amplitude matrix, whatever matrix
`baselineSubtract` returns is all-zero, and `smooth` of an all-zero
matrix is all-zero. -/
theorem baselineSubtract_smooth_all_zero {α : Type} [LinearOrderedField α]
    (amp : List (List α)) (rb sb : List ℤ)
    (hz : ∀ row ∈ amp, ∀ x ∈ row, x = 0) :
    (∀ out, baselineSubtract amp rb = some out → ∀ row ∈ out, ∀ x ∈ row, x = 0)
    ∧ (∀ row ∈ smooth amp sb, ∀ x ∈ row, x = 0) := by
  constructor
  · intro out h row hrow x hx
    obtain ⟨row₀, hrow₀, i, vals, hvals, hxeq⟩ := baselineSubtract_entry_shape h hrow hx
    have hvz : ∀ v ∈ vals, v = 0 := by
      intro v hv
      have := seqOption_mem hvals hv
      obtain ⟨j, _, hj⟩ := List.mem_map.mp this
      obtain ⟨m, hm⟩ := npGetF_eq_some hj
      rw [hm]
      exact getD_eq_zero_of_all_zero (hz row₀ hrow₀) m
    rw [hxeq, getD_eq_zero_of_all_zero (hz row₀ hrow₀) i, meanL_eq_zero hvz]
    simp
  · intro row hrow x hx
    obtain ⟨row₀, hrow₀, inds, hxeq⟩ := smooth_entry_shape hrow hx
    rw [hxeq]
    refine meanL_eq_zero ?_
    intro y hy
    obtain ⟨j, _, hj⟩ := List.mem_map.mp hy
    rw [← hj]
    exact getD_eq_zero_of_all_zero (hz row₀ hrow₀) _

/-- Witness for C6 at `[[1]]` with empty reference offsets over `ℚ`. -/
theorem baselineSubtract_smooth_nonneg_witness :
    baselineSubtract ([[1]] : List (List ℚ)) [] = some [[1]]
    ∧ ((∀ row ∈ ([[1]] : List (List ℚ)), ∀ x ∈ row, 0 ≤ x)
       ∧ (∀ row ∈ smooth ([[1]] : List (List ℚ)) [-1, 0, 1], ∀ x ∈ row, 0 ≤ x)) := by
  have h : baselineSubtract ([[1]] : List (List ℚ)) [] = some [[1]] := by
    simp [baselineSubtract, seqOption, meanL, nBins]
  exact ⟨h, baselineSubtract_smooth_nonneg _ [] [-1, 0, 1] _ h⟩

/-- Witness for C8 at the all-zero matrix `[[0,0,0,0,0,0]]` with the
source's reference and smoothing offsets over `ℚ`. -/
theorem baselineSubtract_smooth_all_zero_witness :
    (∀ row ∈ ([[0, 0, 0, 0, 0, 0]] : List (List ℚ)), ∀ x ∈ row, x = 0)
    ∧ ((∀ out, baselineSubtract ([[0, 0, 0, 0, 0, 0]] : List (List ℚ))
          [-5, -4, -3, 3, 4, 5] = some out → ∀ row ∈ out, ∀ x ∈ row, x = 0)
       ∧ (∀ row ∈ smooth ([[0, 0, 0, 0, 0, 0]] : List (List ℚ)) [-1, 0, 1],
            ∀ x ∈ row, x = 0)) := by
  have hz : ∀ row ∈ ([[0, 0, 0, 0, 0, 0]] : List (List ℚ)), ∀ x ∈ row, x = 0 := by
    simp
  exact ⟨hz, baselineSubtract_smooth_all_zero _ [-5, -4, -3, 3, 4, 5] [-1, 0, 1] hz⟩

theorem argminList_isSome {α : Type} [LinearOrderedField α] {xs : List α}
    (hne : xs ≠ []) : ∃ k, argminList xs = some k := by
  cases xs with
  | nil => cases hne rfl
  | cons x t =>
    cases h : argminList t with
    | none => exact ⟨0, by simp [argminList, h]⟩
    | some j =>
      refine ⟨if x ≤ t.getD j 0 then 0 else j + 1, ?_⟩
      rw [argminList, h]
      show (if x ≤ t.getD j 0 then some 0 else some (j + 1) : Option ℕ)
          = some (if x ≤ t.getD j 0 then 0 else j + 1)
      split <;> rfl

theorem argminList_eq_some_spec {α : Type} [LinearOrderedField α] {xs : List α}
    {k : ℕ} (h : argminList xs = some k) :
    k < xs.length
    ∧ (∀ l, l < xs.length → xs.getD k 0 ≤ xs.getD l 0)
    ∧ (∀ l, l < k → xs.getD k 0 < xs.getD l 0) := by
  induction xs generalizing k with
  | nil => cases h
  | cons x t ih =>
    cases ht : argminList t with
    | none =>
      have hk : k = 0 := by
        rw [argminList, ht] at h
        exact (Option.some.inj h).symm
      subst hk
      have hte : t = [] := by
        cases t with
        | nil => rfl
        | cons y u =>
          obtain ⟨m, hm⟩ := argminList_isSome (List.cons_ne_nil y u)
          rw [hm] at ht
          cases ht
      subst hte
      refine ⟨by simp, ?_, ?_⟩
      · intro l hl
        have : l = 0 := by simpa using hl
        subst this
        exact le_refl _
      · intro l hl
        exact absurd hl (Nat.not_lt_zero l)
    | some j =>
      obtain ⟨hjlen, hjmin, hjfirst⟩ := ih ht
      rw [argminList, ht] at h
      have h2 : (if x ≤ t.getD j 0 then some 0 else some (j + 1) : Option ℕ) = some k := h
      by_cases hx : x ≤ t.getD j 0
      · rw [if_pos hx] at h2
        have hk : k = 0 := (Option.some.inj h2).symm
        subst hk
        refine ⟨by simp, ?_, ?_⟩
        · intro l hl
          cases l with
          | zero => exact le_refl _
          | succ n =>
            rw [List.getD_cons_zero, List.getD_cons_succ]
            exact le_trans hx (hjmin n (by simpa using Nat.lt_of_succ_lt_succ hl))
        · intro l hl
          exact absurd hl (Nat.not_lt_zero l)
      · rw [if_neg hx] at h2
        push_neg at hx
        have hk : k = j + 1 := (Option.some.inj h2).symm
        subst hk
        refine ⟨by simpa using Nat.succ_lt_succ hjlen, ?_, ?_⟩
        · intro l hl
          cases l with
          | zero =>
            rw [List.getD_cons_zero, List.getD_cons_succ]
            exact le_of_lt hx
          | succ n =>
            rw [List.getD_cons_succ, List.getD_cons_succ]
            exact hjmin n (by simpa using Nat.lt_of_succ_lt_succ hl)
        · intro l hl
          cases l with
          | zero =>
            rw [List.getD_cons_zero, List.getD_cons_succ]
            exact hx
          | succ n =>
            rw [List.getD_cons_succ, List.getD_cons_succ]
            exact hjfirst n (Nat.lt_of_succ_lt_succ hl)

theorem getD_map_abs_sub {α : Type} [LinearOrderedField α] (freqs : List α)
    (f : α) {l : ℕ} (hl : l < freqs.length) :
    (freqs.map (fun x => |x - f|)).getD l 0 = |freqs.getD l 0 - f| := by
  rw [List.getD_eq_getElem _ _ (by simpa using hl), List.getD_eq_getElem _ _ hl,
      List.getElem_map]

/-- C5: on a non-empty frequency axis, `nearestBinAmplitudes` succeeds and,
for every target frequency, picks a bin index of minimal absolute
distance to the target, strictly smaller than at any earlier index
(first occurrence of the minimum), and returns that bin's actual
frequency and, per channel, that bin's amplitude, with no interpolation;
a target already present in `freqs` comes back exactly. -/
theorem nearestBinAmplitudes_selects_nearest_bin {α : Type} [LinearOrderedField α]
    (freqs : List α) (amp : List (List α)) (targetFreqs : List α)
    (hne : freqs ≠ []) :
    ∃ cf ta, nearestBinAmplitudes freqs amp targetFreqs = some (cf, ta)
      ∧ cf.length = targetFreqs.length
      ∧ ta.length = amp.length
      ∧ ∀ j, j < targetFreqs.length →
          ∃ k, k < freqs.length
            ∧ (∀ l, l < freqs.length →
                |freqs.getD k 0 - targetFreqs.getD j 0|
                  ≤ |freqs.getD l 0 - targetFreqs.getD j 0|)
            ∧ (∀ l, l < k →
                |freqs.getD k 0 - targetFreqs.getD j 0|
                  < |freqs.getD l 0 - targetFreqs.getD j 0|)
            ∧ cf.getD j 0 = freqs.getD k 0
            ∧ (∀ c, c < amp.length →
                (ta.getD c []).getD j 0 = (amp.getD c []).getD k 0)
            ∧ (targetFreqs.getD j 0 ∈ freqs →
                cf.getD j 0 = targetFreqs.getD j 0) := by
  have hall : ∀ o ∈ targetFreqs.map (fun f =>
      argminList (freqs.map (fun x => |x - f|))), ∃ b, o = some b := by
    intro o ho
    obtain ⟨f, _, hfo⟩ := List.mem_map.mp ho
    have hmapne : freqs.map (fun x => |x - f|) ≠ [] := by
      simpa using hne
    obtain ⟨k, hk⟩ := argminList_isSome hmapne
    exact ⟨k, by rw [← hfo, hk]⟩
  obtain ⟨inds, hinds⟩ := seqOption_all_some hall
  have hlen : inds.length = targetFreqs.length := by
    have := seqOption_eq_some_length hinds
    simpa using this
  refine ⟨inds.map (fun k => freqs.getD k 0),
          amp.map (fun row => inds.map (fun k => row.getD k 0)), ?_, ?_, ?_, ?_⟩
  · simp [nearestBinAmplitudes, hinds]
  · simp [hlen]
  · simp
  · intro j hj
    have hjlt : j < (targetFreqs.map (fun f =>
        argminList (freqs.map (fun x => |x - f|)))).length := by simpa using hj
    have hjlt2 : j < inds.length := by rw [hlen]; exact hj
    have hgd := seqOption_getD hinds 0 j hjlt
    have hmapgd : (targetFreqs.map (fun f =>
        argminList (freqs.map (fun x => |x - f|)))).getD j none
        = argminList (freqs.map (fun x => |x - targetFreqs.getD j 0|)) := by
      rw [List.getD_eq_getElem _ _ hjlt, List.getElem_map,
          List.getD_eq_getElem _ _ hj]
    rw [hmapgd] at hgd
    obtain ⟨hklen, hkmin, hkfirst⟩ := argminList_eq_some_spec hgd
    rw [List.length_map] at hklen
    have hidx : inds.getD j 0 = inds[j] := List.getD_eq_getElem inds 0 hjlt2
    have hcf : (inds.map (fun k => freqs.getD k 0)).getD j 0
        = freqs.getD (inds.getD j 0) 0 := by
      rw [List.getD_eq_getElem _ _ (by simpa using hjlt2), List.getElem_map, hidx]
    refine ⟨inds.getD j 0, hklen, ?_, ?_, hcf, ?_, ?_⟩
    · intro l hl
      have h := hkmin l (by simpa using hl)
      rwa [getD_map_abs_sub freqs _ hklen, getD_map_abs_sub freqs _ hl] at h
    · intro l hl
      have hllen : l < freqs.length := lt_trans hl hklen
      have h := hkfirst l hl
      rwa [getD_map_abs_sub freqs _ hklen, getD_map_abs_sub freqs _ hllen] at h
    · intro c hc
      have hget : amp.getD c [] = amp.get ⟨c, hc⟩ := by
        rw [List.getD_eq_getElem amp [] hc]
        rfl
      have hta1 : (amp.map (fun row => inds.map (fun k => row.getD k 0))).getD c []
          = inds.map (fun k => (amp.get ⟨c, hc⟩).getD k 0) := by
        rw [List.getD_eq_getElem _ _ (by simpa using hc), List.getElem_map]
        rfl
      have hta2 : (inds.map (fun k => (amp.get ⟨c, hc⟩).getD k 0)).getD j 0
          = (amp.get ⟨c, hc⟩).getD (inds.get ⟨j, hjlt2⟩) 0 := by
        rw [List.getD_eq_getElem _ _ (by simpa using hjlt2), List.getElem_map]
        rfl
      have hidx2 : inds.getD j 0 = inds.get ⟨j, hjlt2⟩ := by
        rw [hidx]
        rfl
      rw [hta1, hta2, hget, hidx2]
    · intro hfin
      obtain ⟨l0, hl0, hfl⟩ := List.mem_iff_getElem.mp hfin
      have hmin0 := hkmin l0 (by simpa using hl0)
      rw [getD_map_abs_sub freqs _ hklen, getD_map_abs_sub freqs _ hl0] at hmin0
      have hl0f : freqs.getD l0 0 = targetFreqs.getD j 0 := by
        rw [List.getD_eq_getElem _ _ hl0]; exact hfl
      rw [hl0f, sub_self, abs_zero] at hmin0
      have habs : |freqs.getD (inds.getD j 0) 0 - targetFreqs.getD j 0| = 0 :=
        le_antisymm hmin0 (abs_nonneg _)
      rw [hcf, sub_eq_zero.mp (abs_eq_zero.mp habs)]

/-- Witness for C5 at `freqs = [1,2]`, `amp = [[5,6]]`, target `[2]` over
`ℚ`. -/
theorem nearestBinAmplitudes_selects_nearest_bin_witness :
    ([1, 2] : List ℚ) ≠ []
    ∧ (∃ cf ta, nearestBinAmplitudes ([1, 2] : List ℚ) [[5, 6]] [2] = some (cf, ta)
        ∧ cf.length = ([2] : List ℚ).length
        ∧ ta.length = ([[5, 6]] : List (List ℚ)).length
        ∧ ∀ j, j < ([2] : List ℚ).length →
            ∃ k, k < ([1, 2] : List ℚ).length
              ∧ (∀ l, l < ([1, 2] : List ℚ).length →
                  |([1, 2] : List ℚ).getD k 0 - ([2] : List ℚ).getD j 0|
                    ≤ |([1, 2] : List ℚ).getD l 0 - ([2] : List ℚ).getD j 0|)
              ∧ (∀ l, l < k →
                  |([1, 2] : List ℚ).getD k 0 - ([2] : List ℚ).getD j 0|
                    < |([1, 2] : List ℚ).getD l 0 - ([2] : List ℚ).getD j 0|)
              ∧ cf.getD j 0 = ([1, 2] : List ℚ).getD k 0
              ∧ (∀ c, c < ([[5, 6]] : List (List ℚ)).length →
                  (ta.getD c []).getD j 0
                    = (([[5, 6]] : List (List ℚ)).getD c []).getD k 0)
              ∧ (([2] : List ℚ).getD j 0 ∈ ([1, 2] : List ℚ) →
                  cf.getD j 0 = ([2] : List ℚ).getD j 0)) :=
  ⟨by simp, nearestBinAmplitudes_selects_nearest_bin [1, 2] [[5, 6]] [2] (by simp)⟩

/-- C4: `computeSpectrum` fails with the invalid-input error exactly when
the time dimension is zero or the sampling rate is non-positive, and
otherwise returns a frequency axis and an amplitude matrix. -/
theorem computeSpectrum_invalid_input (signal : List (List ℝ)) (samplingRate : ℝ) :
    (computeSpectrum signal samplingRate = Except.error SpecError.invalidInput
      ↔ (nBins signal = 0 ∨ samplingRate ≤ 0))
    ∧ (¬(nBins signal = 0 ∨ samplingRate ≤ 0) →
        ∃ freqs amp, computeSpectrum signal samplingRate = Except.ok (freqs, amp)) := by
  constructor
  · constructor
    · intro h
      by_contra hc
      simp only [computeSpectrum] at h
      rw [if_neg hc] at h
      cases h
    · intro hc
      simp only [computeSpectrum]
      rw [if_pos hc]
  · intro hc
    simp only [computeSpectrum]
    rw [if_neg hc]
    exact ⟨_, _, rfl⟩

/-- Witness for C4: an empty signal (time dimension 0) is rejected with
the invalid-input error. -/
theorem computeSpectrum_invalid_input_witness :
    computeSpectrum ([] : List (List ℝ)) 1 = Except.error SpecError.invalidInput :=
  (computeSpectrum_invalid_input [] 1).1.mpr (Or.inl rfl)

theorem filterMap_guard {β γ : Type} (l : List β) (p : β → Prop) [DecidablePred p]
    (f : β → γ) :
    l.filterMap (fun a => if p a then some (f a) else none)
      = (l.filter (fun a => decide (p a))).map f := by
  induction l with
  | nil => rfl
  | cons a t ih =>
    by_cases h : p a
    · simp [List.filterMap_cons, List.filter_cons, h, ih]
    · simp [List.filterMap_cons, List.filter_cons, h, ih]

theorem maskKeep_range_fftfreq {α β : Type} [LinearOrderedField α]
    (n : ℕ) {d : α} (hd : 0 < d) (f : ℕ → β) :
    maskKeep ((List.range n).map f) (fftfreq n d)
      = ((List.range n).filter (fun k => decide (k ≤ (n - 1) / 2))).map f := by
  unfold maskKeep fftfreq
  rw [List.zip_map', List.filterMap_map]
  have hcong : ∀ k ∈ List.range n,
      ((fun p : β × α => if 0 ≤ p.2 then some p.1 else none) ∘
        (fun k => (f k, if k ≤ (n - 1) / 2 then (k : α) / (d * n)
          else ((k : α) - n) / (d * n)))) k
      = (fun k => if k ≤ (n - 1) / 2 then some (f k) else none) k := by
    intro k hk
    have hkn : k < n := List.mem_range.mp hk
    have hdn : (0 : α) < d * n :=
      mul_pos hd (by exact_mod_cast lt_of_le_of_lt (Nat.zero_le k) hkn)
    by_cases hle : k ≤ (n - 1) / 2
    · simp only [Function.comp_apply, if_pos hle]
      rw [if_pos (div_nonneg (Nat.cast_nonneg k) hdn.le)]
    · simp only [Function.comp_apply, if_neg hle]
      rw [if_neg]
      rw [not_le]
      refine div_neg_of_neg_of_pos ?_ hdn
      have : (k : α) < n := by exact_mod_cast hkn
      linarith
  rw [List.filterMap_congr hcong]
  exact filterMap_guard _ _ _

/-- C7: for a signal with positive time dimension and positive sampling
rate, `computeSpectrum` succeeds and the returned pair satisfies the
Spectrum invariant: every amplitude row has exactly as many bins as the
frequency axis, every retained frequency is non-negative (bin 0
included), and the frequency axis is strictly increasing. -/
theorem computeSpectrum_spectrum_invariant (signal : List (List ℝ))
    (samplingRate : ℝ) (hT : 0 < nBins signal) (hr : 0 < samplingRate) :
    ∃ freqs amp, computeSpectrum signal samplingRate = Except.ok (freqs, amp)
      ∧ (∀ row ∈ amp, row.length = freqs.length)
      ∧ (∀ x ∈ freqs, 0 ≤ x)
      ∧ 0 ∈ freqs
      ∧ List.Pairwise (· < ·) freqs := by
  have hcond : ¬(nBins signal = 0 ∨ samplingRate ≤ 0) := by
    push_neg
    exact ⟨hT.ne', hr⟩
  have hd : (0 : ℝ) < 1 / samplingRate := by positivity
  have hdn : (0 : ℝ) < (1 / samplingRate) * nBins signal :=
    mul_pos hd (by exact_mod_cast hT)
  have e1 : maskKeep (fftfreq (nBins signal) (1 / samplingRate))
        (fftfreq (nBins signal) (1 / samplingRate))
      = ((List.range (nBins signal)).filter
          (fun k => decide (k ≤ (nBins signal - 1) / 2))).map
        (fun k => if k ≤ (nBins signal - 1) / 2
          then (k : ℝ) / ((1 / samplingRate) * nBins signal)
          else ((k : ℝ) - nBins signal) / ((1 / samplingRate) * nBins signal)) :=
    maskKeep_range_fftfreq (nBins signal) hd _
  have e2 : ∀ row : List ℝ,
      maskKeep (dftRow (nBins signal) row)
        (fftfreq (nBins signal) (1 / samplingRate))
      = ((List.range (nBins signal)).filter
          (fun k => decide (k ≤ (nBins signal - 1) / 2))).map
        (fun k => Complex.abs (∑ t ∈ Finset.range (nBins signal),
          ((row.getD t 0 : ℝ) : ℂ) * Complex.exp
            (-2 * (Real.pi : ℂ) * Complex.I * ((k : ℕ) : ℂ) * ((t : ℕ) : ℂ)
              / ((nBins signal : ℕ) : ℂ)))) :=
    fun row => maskKeep_range_fftfreq (nBins signal) hd _
  refine ⟨maskKeep (fftfreq (nBins signal) (1 / samplingRate))
            (fftfreq (nBins signal) (1 / samplingRate)),
          signal.map (fun row => maskKeep (dftRow (nBins signal) row)
            (fftfreq (nBins signal) (1 / samplingRate))),
          ?_, ?_, ?_, ?_, ?_⟩
  · simp only [computeSpectrum]
    rw [if_neg hcond]
  · intro row hrow
    obtain ⟨row₀, _, hrow₀⟩ := List.mem_map.mp hrow
    rw [← hrow₀, e1, e2 row₀, List.length_map, List.length_map]
  · intro x hx
    rw [e1] at hx
    obtain ⟨k, hk, hxk⟩ := List.mem_map.mp hx
    have hkh : k ≤ (nBins signal - 1) / 2 := by
      simpa using (List.mem_filter.mp hk).2
    rw [← hxk, if_pos hkh]
    exact div_nonneg (Nat.cast_nonneg k) hdn.le
  · rw [e1]
    refine List.mem_map.mpr ⟨0, ?_, ?_⟩
    · refine List.mem_filter.mpr ⟨List.mem_range.mpr hT, ?_⟩
      simp
    · rw [if_pos (Nat.zero_le _)]
      simp
  · rw [e1, List.pairwise_map]
    have hp : ((List.range (nBins signal)).filter
        (fun k => decide (k ≤ (nBins signal - 1) / 2))).Pairwise (· < ·) :=
      (List.pairwise_lt_range (nBins signal)).filter _
    refine hp.imp_of_mem ?_
    intro a b ha hb hab
    have hah : a ≤ (nBins signal - 1) / 2 := by
      simpa using (List.mem_filter.mp ha).2
    have hbh : b ≤ (nBins signal - 1) / 2 := by
      simpa using (List.mem_filter.mp hb).2
    rw [if_pos hah, if_pos hbh]
    exact (div_lt_div_iff_of_pos_right hdn).mpr (by exact_mod_cast hab)

/-- Witness for C7 at the one-sample signal `[[1]]` with sampling rate
`1`. -/
theorem computeSpectrum_spectrum_invariant_witness :
    0 < nBins ([[1]] : List (List ℝ))
    ∧ (0 : ℝ) < 1
    ∧ (∃ freqs amp, computeSpectrum ([[1]] : List (List ℝ)) 1 = Except.ok (freqs, amp)
        ∧ (∀ row ∈ amp, row.length = freqs.length)
        ∧ (∀ x ∈ freqs, 0 ≤ x)
        ∧ 0 ∈ freqs
        ∧ List.Pairwise (· < ·) freqs) :=
  ⟨by norm_num [nBins], by norm_num,
   computeSpectrum_spectrum_invariant [[1]] 1 (by norm_num [nBins]) (by norm_num)⟩

/-- C10: the nearest-bin outputs of the full frequency-tagging flow are
computed from the raw amplitude matrix, not from the normalized one:
they do not depend on the reference or smoothing offsets, so two runs of
the pipeline on the same signal, rate and targets but different
normalization offsets return the same `closestFreqs` and `targetAmp`. -/
theorem freqTagPipeline_eq_some {signal : List (List ℝ)} {samplingRate : ℝ}
    {rb sb : List ℤ} {targetFreqs : List ℝ} {r : FreqTagResult ℝ}
    (h : freqTagPipeline signal samplingRate rb sb targetFreqs = some r) :
    ∃ freqs amp subAmp cf ta,
      computeSpectrum signal samplingRate = Except.ok (freqs, amp)
      ∧ baselineSubtract amp rb = some subAmp
      ∧ nearestBinAmplitudes freqs amp targetFreqs = some (cf, ta)
      ∧ r = ⟨freqs, amp, smooth subAmp sb, cf, ta⟩ := by
  unfold freqTagPipeline at h
  split at h
  · cases h
  · rename_i freqs amp heq
    split at h
    · cases h
    · rename_i subAmp hb
      split at h
      · cases h
      · rename_i cf ta hn
        cases h
        exact ⟨freqs, amp, subAmp, cf, ta, heq, hb, hn, rfl⟩

theorem freqTagPipeline_targetAmp_from_raw_amp (signal : List (List ℝ))
    (samplingRate : ℝ) (rb sb rb2 sb2 : List ℤ) (targetFreqs : List ℝ)
    (r r2 : FreqTagResult ℝ)
    (h1 : freqTagPipeline signal samplingRate rb sb targetFreqs = some r)
    (h2 : freqTagPipeline signal samplingRate rb2 sb2 targetFreqs = some r2) :
    r.closestFreqs = r2.closestFreqs ∧ r.targetAmp = r2.targetAmp := by
  obtain ⟨f1, a1, s1, cf1, ta1, hspec1, hb1, hn1, hr1⟩ := freqTagPipeline_eq_some h1
  obtain ⟨f2, a2, s2, cf2, ta2, hspec2, hb2, hn2, hr2⟩ := freqTagPipeline_eq_some h2
  rw [hspec1] at hspec2
  injection hspec2 with hpair
  obtain ⟨hf, ha⟩ := Prod.mk.inj hpair
  subst hf
  subst ha
  rw [hn1] at hn2
  injection hn2 with hq
  obtain ⟨hcf, hta⟩ := Prod.mk.inj hq
  subst hcf
  subst hta
  rw [hr1, hr2]
  exact ⟨rfl, rfl⟩

theorem freqTagPipeline_eq_some_intro {signal : List (List ℝ)} {samplingRate : ℝ}
    {rb : List ℤ} (sb : List ℤ) {targetFreqs : List ℝ} {freqs cf : List ℝ}
    {amp subAmp ta : List (List ℝ)}
    (hspec : computeSpectrum signal samplingRate = Except.ok (freqs, amp))
    (hb : baselineSubtract amp rb = some subAmp)
    (hn : nearestBinAmplitudes freqs amp targetFreqs = some (cf, ta)) :
    freqTagPipeline signal samplingRate rb sb targetFreqs
      = some (FreqTagResult.mk freqs amp (smooth subAmp sb) cf ta) := by
  unfold freqTagPipeline
  rw [hspec]
  simp only [hb, hn]

theorem computeSpectrum_one_eval :
    computeSpectrum ([[1]] : List (List ℝ)) 1 = Except.ok ([0], [[1]]) := by
  simp only [computeSpectrum]
  rw [if_neg (by norm_num [nBins])]
  have hr1 : List.range 1 = [0] := rfl
  norm_num [nBins, fftfreq, dftRow, maskKeep, hr1, List.filterMap_cons]

theorem baselineSubtract_one_eval :
    baselineSubtract ([[1]] : List (List ℝ)) [] = some [[1]] := by
  norm_num [baselineSubtract, seqOption, meanL, nBins]

theorem nearestBin_one_eval :
    nearestBinAmplitudes ([0] : List ℝ) [[1]] [0] = some ([0], [[1]]) := by
  norm_num [nearestBinAmplitudes, seqOption, argminList]

theorem smooth_one_empty_eval : smooth ([[1]] : List (List ℝ)) [] = [[0]] := by
  norm_num [smooth, meanL, nBins]

theorem smooth_one_window_eval :
    smooth ([[1]] : List (List ℝ)) [-1, 0, 1] = [[1]] := by
  have hr1 : List.range 1 = [0] := rfl
  norm_num [smooth, meanL, nBins, hr1]

/-- Witness for C10: two runs of the pipeline on the one-sample signal
`[[1]]` at rate `1`, target `[0]`, with different smoothing offsets,
produce different normalized matrices but identical nearest-bin
outputs. -/
theorem freqTagPipeline_targetAmp_from_raw_amp_witness :
    freqTagPipeline [[1]] 1 [] [] [0]
      = some (FreqTagResult.mk [0] [[1]] [[0]] [0] [[1]])
    ∧ freqTagPipeline [[1]] 1 [] [-1, 0, 1] [0]
      = some (FreqTagResult.mk [0] [[1]] [[1]] [0] [[1]])
    ∧ ((FreqTagResult.mk ([0] : List ℝ) [[1]] [[0]] [0] [[1]]).closestFreqs
        = (FreqTagResult.mk ([0] : List ℝ) [[1]] [[1]] [0] [[1]]).closestFreqs
      ∧ (FreqTagResult.mk ([0] : List ℝ) [[1]] [[0]] [0] [[1]]).targetAmp
        = (FreqTagResult.mk ([0] : List ℝ) [[1]] [[1]] [0] [[1]]).targetAmp) := by
  have h1 : freqTagPipeline [[1]] 1 [] [] [0]
      = some (FreqTagResult.mk [0] [[1]] [[0]] [0] [[1]]) := by
    have h := freqTagPipeline_eq_some_intro []
      computeSpectrum_one_eval baselineSubtract_one_eval nearestBin_one_eval
    rwa [smooth_one_empty_eval] at h
  have h2 : freqTagPipeline [[1]] 1 [] [-1, 0, 1] [0]
      = some (FreqTagResult.mk [0] [[1]] [[1]] [0] [[1]]) := by
    have h := freqTagPipeline_eq_some_intro [-1, 0, 1]
      computeSpectrum_one_eval baselineSubtract_one_eval nearestBin_one_eval
    rwa [smooth_one_window_eval] at h
  exact ⟨h1, h2,
    freqTagPipeline_targetAmp_from_raw_amp [[1]] 1 [] [] [] [-1, 0, 1] [0] _ _ h1 h2⟩

end FreqTag
